import Mathlib

/-!
Shallow embedding of the pg-queue python worker (workers/python/worker.py).

The dispatcher state that the claims speak about is the registry `jobs`
(a python dict from job id to `Job` handle) plus the tick counter `it`.
Interaction with the outside world (the postgres store, the child
processes, the notification channel) is modelled by oracle records whose
fields give the answers the world would return; every store or OS call the
worker makes is recorded in an event trace so that ordering and
exactly-once claims can be stated about it.
-/

namespace PgQueue

/-- A python value, as far as the job payloads and results need one. -/
inductive Value where
  | vnone
  | vstr (s : String)
  | vint (n : Int)
  | vbool (b : Bool)
deriving DecidableEq, Repr

/-- The payload column of a job row: dotted function reference, args, kwargs. -/
structure Payload where
  func : String
  args : List Value
  kwargs : List (String × Value)
deriving DecidableEq, Repr

/-- A row of the job table as the worker reads it. -/
structure JobRow where
  id : String
  queue : String
  payload : Payload
  tries : Nat
  timeout : Int
deriving DecidableEq, Repr

/-- The one message a child sends on its pipe: dict with keys result and exc
(worker.py lines 37 and 40). -/
structure ChildMsg where
  result : Value
  exc : Option String
deriving DecidableEq, Repr

/-- Python truthiness of the exc field: None and the empty string are falsy
(worker.py lines 90-91 test `not result["exc"]` / `if result["exc"]`). -/
def pyFalsy : Option String → Bool
  | none => true
  | some s => s = ""

/-- Splits a character list at its last dot: the part before it and the part
after it, or `none` when there is no dot. -/
def splitLastDot : List Char → Option (List Char × List Char)
  | [] => none
  | c :: t =>
    match splitLastDot t with
    | some (m, f) => some (c :: m, f)
    | none => if c = '.' then some ([], t) else none

/-- payload["func"].rsplit(".", 1) with the two-name unpacking of line 31:
`none` models the ValueError raised when the string has no dot. -/
def rsplitDot (s : String) : Option (String × String) :=
  match splitLastDot s.data with
  | none => none
  | some (m, f) => some (String.mk m, String.mk f)

/-- Oracle for what the child's interpreter does: importlib.import_module,
getattr, and the call of the resolved function. An `Except.error` models a
raised Exception, carrying its formatted description. -/
structure ChildEnv where
  importMod : String → Except String Unit
  getattr : String → String → Except String (List Value → List (String × Value) → Except String Value)

/-- traceback.format_exception output for a raised exception e (line 39);
always a nonempty string. -/
def formatExc (e : String) : String := "Traceback (most recent call last): " ++ e

/-- The body of the try block of Job.run (worker.py lines 31-37): resolve the
dotted reference, then call it on args and kwargs. -/
def tryBody (env : ChildEnv) (p : Payload) : Except String Value :=
  match rsplitDot p.func with
  | none => Except.error "ValueError: not enough values to unpack"
  | some (m, f) =>
    match env.importMod m with
    | Except.error e => Except.error e
    | Except.ok _ =>
      match env.getattr m f with
      | Except.error e => Except.error e
      | Except.ok fn => fn p.args p.kwargs

/-- The in-memory handle of one running job, as observed by the dispatch loop
at reap time. `msg` is the content of the one-shot pipe; the remaining fields
are the OS-level observations the reap phase makes: the process exit code
when the handle is inspected, liveness after terminate() plus the 3 second
sleep, the exit code re-read at line 103 after the escalation, and whether
Process.close() raises ValueError. -/
structure Job where
  msg : ChildMsg
  exitcode : Option Int
  elapsed : Int
  timeout : Int
  aliveAfterGrace : Bool
  exitcodeAfterTerm : Option Int
  closeRaises : Bool
deriving DecidableEq, Repr

/-- Job.run (worker.py lines 28-42): the try/except around resolution and
call, producing the dict the child sends. -/
def Job.run (env : ChildEnv) (row : JobRow) : ChildMsg :=
  match tryBody env row.payload with
  | Except.ok res => { result := res, exc := none }
  | Except.error e => { result := Value.vnone, exc := some (formatExc e) }

/-- The messages Job.run sends on the result pipe: the single result.send(res)
at line 42. -/
def Job.runSends (env : ChildEnv) (row : JobRow) : List ChildMsg :=
  [Job.run env row]

/-- Job.ready (line 50): the process exit code is not None. -/
def Job.ready (j : Job) : Bool := j.exitcode.isSome

/-- Job.timed_out (line 54): elapsed seconds exceed the row's timeout. -/
def Job.timed_out (j : Job) : Bool := j.timeout < j.elapsed

/-- The payload reported to finish_job or fail_job. -/
structure JobResult where
  result : Value
  exc : Option String
  exitcode : Option Int
deriving DecidableEq, Repr

/-- Events of the trace: every store call, process-control call and sleep the
worker performs, in program order. -/
inductive Ev where
  | releaseLost (known : List String)
  | popReg (id : String)
  | finishJob (id : String) (res : JobResult)
  | failJob (id : String) (res : JobResult)
  | commitEv
  | terminateProc (id : String)
  | sleepSec (n : Nat)
  | killProc (id : String)
  | closeOk (id : String)
  | closeFailed (id : String)
  | reserveCall (id : String)
  | bulkClaim (n : Int)
  | assertHalt (id : String)
deriving DecidableEq, Repr

/-- The registry: the python dict job id -> Job, as an insertion-ordered
association list with (invariantly) distinct keys. -/
abbrev Reg := List (String × Job)

/-- The keys of the registry, i.e. list(jobs). -/
def keys (reg : Reg) : List String := reg.map Prod.fst

/-- dict.pop(k): remove the entry with key k (the first, and with distinct
keys the only, occurrence). -/
def popKey (k : String) : Reg → Reg
  | [] => []
  | e :: t => if e.1 = k then t else e :: popKey k t

/-- The result dict built in the ready branch (lines 89-90): the child's
message with exitcode set to the process exit code, or to 1 when an exc was
reported. -/
def readyResult (j : Job) : JobResult :=
  { result := j.msg.result, exc := j.msg.exc,
    exitcode := if pyFalsy j.msg.exc then j.exitcode else some 1 }

/-- Events of the ready branch of complete_jobs (lines 87-93): pop, one
finish_job or fail_job call, commit. -/
def readyEvs (id : String) (j : Job) : List Ev :=
  [Ev.popReg id,
   if pyFalsy j.msg.exc then Ev.finishJob id (readyResult j)
   else Ev.failJob id (readyResult j),
   Ev.commitEv]

/-- The result dict built in the timeout branch (line 103). -/
def timeoutResult (j : Job) : JobResult :=
  { result := Value.vnone, exc := some "timed out", exitcode := j.exitcodeAfterTerm }

/-- Events of the timeout branch of complete_jobs (lines 94-111): pop,
terminate, sleep 3, kill and sleep 1 if still alive, close (logging a
ValueError instead of raising), fail_job, commit. -/
def timeoutEvs (id : String) (j : Job) : List Ev :=
  [Ev.popReg id, Ev.terminateProc id, Ev.sleepSec 3]
    ++ (if j.aliveAfterGrace then [Ev.killProc id, Ev.sleepSec 1] else [])
    ++ [if j.closeRaises then Ev.closeFailed id else Ev.closeOk id,
        Ev.failJob id (timeoutResult j), Ev.commitEv]

/-- The loop body of complete_jobs: iterate the snapshot list(jobs.items()),
popping from and reporting about the live registry. -/
def completeAux : List (String × Job) → Reg → Reg × List Ev
  | [], reg => (reg, [])
  | (id, j) :: rest, reg =>
    if j.ready then
      let p := completeAux rest (popKey id reg)
      (p.1, readyEvs id j ++ p.2)
    else if j.timed_out then
      let p := completeAux rest (popKey id reg)
      (p.1, timeoutEvs id j ++ p.2)
    else
      completeAux rest reg

/-- complete_jobs (worker.py lines 85-111): the snapshot iterated is the
registry itself. Returns the registry after the pass and the event trace. -/
def complete_jobs (jobs : Reg) : Reg × List Ev := completeAux jobs jobs

/-- An entry is reaped when it is ready or timed out. -/
def reaps (j : Job) : Bool := j.ready || j.timed_out

/-- The events one registry entry contributes to the reap trace. -/
def entryEvs (id : String) (j : Job) : List Ev :=
  if j.ready then readyEvs id j else if j.timed_out then timeoutEvs id j else []

/-- The worker's configuration: the parsed --queues list and the --processes
concurrency limit (worker.py lines 141-142). -/
structure Config where
  queues : List String
  procs : Nat
deriving DecidableEq, Repr

/-- One drained notification: notify.payload is "queue jobId" and line 176
splits it into the two tokens. -/
structure Notif where
  queue : String
  jobId : String
deriving DecidableEq, Repr

/-- Oracle for one tick of the main loop: what release_lost_jobs returns,
whether select reported the connection readable, the notifications drained,
what reserve_job and reserve_jobs_from_queues return, and the Job handle
observations for each row spawned this tick. -/
structure TickEnv where
  lostRows : List JobRow
  selectReady : Bool
  notifies : List Notif
  reserveJob : String → Option JobRow
  bulkRows : Int → List JobRow
  spawn : JobRow → Job

/-- The dispatcher's mutable state: the registry and the iteration counter. -/
structure St where
  jobs : Reg
  it : Nat
deriving DecidableEq, Repr

/-- The notification drain loop (worker.py lines 172-183): for each drained
notification, attempt reserve_job only when the queue is configured, the job
id is not already registered and the registry is below the limit; insert and
commit only when the store returned a row. -/
def notifyPhase (cfg : Config) (env : TickEnv) : List Notif → Reg → Reg × List Ev
  | [], reg => (reg, [])
  | nf :: rest, reg =>
    if nf.queue ∈ cfg.queues ∧ nf.jobId ∉ keys reg ∧ reg.length < cfg.procs then
      match env.reserveJob nf.jobId with
      | some row =>
        ((notifyPhase cfg env rest (reg ++ [(nf.jobId, env.spawn row)])).1,
         Ev.reserveCall nf.jobId :: Ev.commitEv ::
           (notifyPhase cfg env rest (reg ++ [(nf.jobId, env.spawn row)])).2)
      | none =>
        ((notifyPhase cfg env rest reg).1,
         Ev.reserveCall nf.jobId :: (notifyPhase cfg env rest reg).2)
    else
      notifyPhase cfg env rest reg

/-- The for loop over the rows of a bulk claim (worker.py lines 188-192):
assert each row's id is not registered (None = AssertionError, halting the
worker before the commit), otherwise register it; commit after the loop. -/
def pollRows (env : TickEnv) : List JobRow → Reg → Option Reg × List Ev
  | [], reg => (some reg, [Ev.commitEv])
  | row :: rest, reg =>
    if row.id ∈ keys reg then (none, [Ev.assertHalt row.id])
    else pollRows env rest (reg ++ [(row.id, env.spawn row)])

/-- The remaining capacity n = procs - len(jobs) of line 185, a python int. -/
def capacity (cfg : Config) (reg : Reg) : Int := (cfg.procs : Int) - (reg.length : Int)

/-- The reconciliation block (worker.py lines 159-166), run when the
incremented counter satisfies it % 10 == 1: call release_lost_jobs with the
registered ids and, only if it returned rows, commit. It never modifies the
registry. -/
def reconcileEvs (env : TickEnv) (st : St) : List Ev :=
  if (st.it + 1) % 10 = 1 then
    Ev.releaseLost (keys st.jobs) :: (if env.lostRows.isEmpty then [] else [Ev.commitEv])
  else []

/-- One iteration of the while loop (worker.py lines 156-192): increment the
counter; run the reconciliation block on its cadence; run complete_jobs; then
either drain notifications (select readable) or, when the wait timed out,
bulk claim up to the remaining capacity if it is positive. `none` as the
resulting state means the worker halted on the duplicate-claim assertion. -/
def tick (cfg : Config) (env : TickEnv) (st : St) : Option St × List Ev :=
  if env.selectReady then
    (some ⟨(notifyPhase cfg env env.notifies (complete_jobs st.jobs).1).1, st.it + 1⟩,
     reconcileEvs env st ++ (complete_jobs st.jobs).2
       ++ (notifyPhase cfg env env.notifies (complete_jobs st.jobs).1).2)
  else
    if 0 < capacity cfg (complete_jobs st.jobs).1 then
      ((pollRows env (env.bulkRows (capacity cfg (complete_jobs st.jobs).1))
          (complete_jobs st.jobs).1).1.map (fun reg2 => ⟨reg2, st.it + 1⟩),
       reconcileEvs env st ++ (complete_jobs st.jobs).2
         ++ Ev.bulkClaim (capacity cfg (complete_jobs st.jobs).1)
           :: (pollRows env (env.bulkRows (capacity cfg (complete_jobs st.jobs).1))
                 (complete_jobs st.jobs).1).2)
    else
      (some ⟨(complete_jobs st.jobs).1, st.it + 1⟩,
       reconcileEvs env st ++ (complete_jobs st.jobs).2)

/-- A store call that reports a job outcome for the given id: a finish_job or
fail_job call. -/
def isReportFor (id : String) : Ev → Bool
  | Ev.finishJob i _ => i = id
  | Ev.failJob i _ => i = id
  | _ => false

/-- Events emitted only by the reconciliation sweep. -/
def isReconcileEv : Ev → Bool
  | Ev.releaseLost _ => true
  | _ => false

/-- Events emitted only by the reap phase (complete_jobs). -/
def isReapEv : Ev → Bool
  | Ev.popReg _ => true
  | Ev.finishJob _ _ => true
  | Ev.failJob _ _ => true
  | Ev.terminateProc _ => true
  | Ev.killProc _ => true
  | Ev.sleepSec _ => true
  | Ev.closeOk _ => true
  | Ev.closeFailed _ => true
  | _ => false

/-- Scans a trace and reports whether some reap event occurs after some
reconciliation event (the accumulator records whether a reconciliation event
has been seen). `false` for a whole trace is exactly the claim that the reap
phase precedes the reconciliation sweep. -/
def reapAfterReconcile : List Ev → Bool → Bool
  | [], _ => false
  | e :: t, seenRec =>
    if isReapEv e && seenRec then true
    else reapAfterReconcile t (seenRec || isReconcileEv e)

/-! ### Lemmas about the reap pass -/

theorem keys_cons (e : String × Job) (t : Reg) : keys (e :: t) = e.1 :: keys t := rfl

theorem mem_keys_of_mem {a : String} {b : Job} {t : Reg} (h : (a, b) ∈ t) :
    a ∈ keys t := List.mem_map_of_mem Prod.fst h

theorem completeAux_snd (l : List (String × Job)) : ∀ reg : Reg,
    (completeAux l reg).2 = l.flatMap (fun e => entryEvs e.1 e.2) := by
  induction l with
  | nil => intro reg; simp [completeAux]
  | cons e rest ih =>
    intro reg
    obtain ⟨id, j⟩ := e
    by_cases hr : j.ready
    · simp [completeAux, hr, entryEvs, ih]
    · by_cases ht : j.timed_out
      · simp [completeAux, hr, ht, entryEvs, ih]
      · simp [completeAux, hr, ht, entryEvs, ih]

theorem completeAux_fst (l : List (String × Job)) : ∀ reg : Reg,
    (completeAux l reg).1 =
      List.foldl (fun a x => if reaps x.2 then popKey x.1 a else a) reg l := by
  induction l with
  | nil => intro reg; simp [completeAux]
  | cons e rest ih =>
    intro reg
    obtain ⟨id, j⟩ := e
    by_cases hr : j.ready
    · simp [completeAux, hr, reaps, ih]
    · by_cases ht : j.timed_out
      · simp [completeAux, hr, ht, reaps, ih]
      · simp [completeAux, hr, ht, reaps, ih]

theorem foldPop_cons (l : List (String × Job)) : ∀ (e : String × Job) (acc : Reg),
    (∀ x ∈ l, x.1 ≠ e.1) →
    List.foldl (fun a x => if reaps x.2 then popKey x.1 a else a) (e :: acc) l
      = e :: List.foldl (fun a x => if reaps x.2 then popKey x.1 a else a) acc l := by
  induction l with
  | nil => intro e acc _; simp
  | cons x t ih =>
    intro e acc h
    have hx : x.1 ≠ e.1 := h x (by simp)
    have hpop : popKey x.1 (e :: acc) = e :: popKey x.1 acc := by
      have hne : ¬(e.1 = x.1) := fun he => hx he.symm
      simp [popKey, hne]
    by_cases hrx : reaps x.2
    · simp only [List.foldl_cons, hrx, if_pos, hpop]
      exact ih e (popKey x.1 acc) (fun y hy => h y (by simp [hy]))
    · simp only [List.foldl_cons, hrx, if_neg, Bool.false_eq_true, not_false_iff]
      exact ih e acc (fun y hy => h y (by simp [hy]))

theorem foldPop_self : ∀ reg : Reg, (keys reg).Nodup →
    List.foldl (fun a x => if reaps x.2 then popKey x.1 a else a) reg reg
      = reg.filter (fun e => !(reaps e.2)) := by
  intro reg
  induction reg with
  | nil => intro _; simp
  | cons e t ih =>
    intro hd
    obtain ⟨id, j⟩ := e
    rw [keys_cons] at hd
    obtain ⟨hd1, hd2⟩ := List.nodup_cons.mp hd
    have hne : ∀ x ∈ t, x.1 ≠ (id, j).1 := by
      intro x hx hEq
      exact hd1 (hEq ▸ List.mem_map_of_mem Prod.fst hx)
    by_cases hrj : reaps j
    · have hpop : popKey id ((id, j) :: t) = t := by simp [popKey]
      simp only [List.foldl_cons, hrj, if_pos, hpop]
      rw [ih hd2]
      simp [List.filter_cons, hrj]
    · simp only [List.foldl_cons, hrj, Bool.false_eq_true, if_neg, not_false_iff]
      rw [foldPop_cons t (id, j) t hne, ih hd2]
      simp [List.filter_cons, hrj]

theorem complete_fst_filter (reg : Reg) (hd : (keys reg).Nodup) :
    (complete_jobs reg).1 = reg.filter (fun e => !(reaps e.2)) := by
  rw [complete_jobs, completeAux_fst]
  exact foldPop_self reg hd

theorem complete_snd_bind (reg : Reg) :
    (complete_jobs reg).2 = reg.flatMap (fun e => entryEvs e.1 e.2) := by
  rw [complete_jobs, completeAux_snd]

theorem key_unique : ∀ reg : Reg, (keys reg).Nodup →
    ∀ {a : String} {b c : Job}, (a, b) ∈ reg → (a, c) ∈ reg → b = c := by
  intro reg
  induction reg with
  | nil => intro _ a b c h1; cases h1
  | cons e t ih =>
    intro hd a b c h1 h2
    rw [keys_cons] at hd
    obtain ⟨hd1, hd2⟩ := List.nodup_cons.mp hd
    rcases List.mem_cons.mp h1 with h1h | h1t
    · rcases List.mem_cons.mp h2 with h2h | h2t
      · rw [← h1h] at h2h
        exact (Prod.mk.injEq _ _ _ _ ▸ h2h.symm).2
      · exfalso
        apply hd1
        have ha : a = e.1 := by rw [← h1h]
        exact ha ▸ mem_keys_of_mem h2t
    · rcases List.mem_cons.mp h2 with h2h | h2t
      · exfalso
        apply hd1
        have ha : a = e.1 := by rw [← h2h]
        exact ha ▸ mem_keys_of_mem h1t
      · exact ih hd2 h1t h2t

theorem mem_keys_iff (reg : Reg) (id : String) : id ∈ keys reg ↔ ∃ j, (id, j) ∈ reg := by
  constructor
  · intro h
    obtain ⟨x, hx, hx1⟩ := List.mem_map.mp h
    exact ⟨x.2, by rwa [show (id, x.2) = x from Prod.ext hx1.symm rfl]⟩
  · intro ⟨j, hj⟩
    exact mem_keys_of_mem hj

theorem not_mem_keys_complete_of_reaped {reg : Reg} {id : String} {j : Job}
    (hd : (keys reg).Nodup) (hmem : (id, j) ∈ reg) (hre : reaps j = true) :
    id ∉ keys (complete_jobs reg).1 := by
  rw [complete_fst_filter reg hd]
  intro hk
  obtain ⟨j1, hj1⟩ := (mem_keys_iff _ _).mp hk
  obtain ⟨hj1m, hj1f⟩ := List.mem_filter.mp hj1
  have : j1 = j := key_unique reg hd hj1m hmem
  rw [this, hre] at hj1f
  simp at hj1f

theorem mem_keys_complete_of_not_reaped {reg : Reg} {id : String} {j : Job}
    (hd : (keys reg).Nodup) (hmem : (id, j) ∈ reg) (hre : reaps j = false) :
    id ∈ keys (complete_jobs reg).1 := by
  rw [complete_fst_filter reg hd]
  exact (mem_keys_iff _ _).mpr ⟨j, List.mem_filter.mpr ⟨hmem, by simp [hre]⟩⟩

theorem countP_entry_ne {id idE : String} (j : Job) (h : idE ≠ id) :
    List.countP (fun e => isReportFor id e) (entryEvs idE j) = 0 := by
  unfold entryEvs readyEvs timeoutEvs
  split_ifs <;>
    simp [List.countP_cons, List.countP_append, isReportFor, h]

theorem countP_entry_self (id : String) (j : Job) :
    List.countP (fun e => isReportFor id e) (entryEvs id j) = if reaps j then 1 else 0 := by
  unfold entryEvs readyEvs timeoutEvs reaps
  split_ifs with h1 h2 <;>
    simp_all [List.countP_cons, List.countP_append, isReportFor]

theorem countP_flatMap_zero (id : String) : ∀ l : Reg, id ∉ keys l →
    List.countP (fun e => isReportFor id e) (l.flatMap (fun e => entryEvs e.1 e.2)) = 0 := by
  intro l
  induction l with
  | nil => intro _; simp
  | cons e t ih =>
    intro h
    rw [keys_cons] at h
    have h1 : e.1 ≠ id := fun hEq => h (by simp [hEq])
    have h2 : id ∉ keys t := fun hEq => h (by simp [hEq])
    simp only [List.flatMap_cons, List.countP_append, countP_entry_ne e.2 h1, ih h2]

theorem count_reports : ∀ (reg : Reg) {id : String} {j : Job}, (keys reg).Nodup →
    (id, j) ∈ reg →
    List.countP (fun e => isReportFor id e) (complete_jobs reg).2
      = if reaps j then 1 else 0 := by
  have main : ∀ (reg : Reg) {id : String} {j : Job}, (keys reg).Nodup → (id, j) ∈ reg →
      List.countP (fun e => isReportFor id e) (reg.flatMap (fun e => entryEvs e.1 e.2))
        = if reaps j then 1 else 0 := by
    intro reg
    induction reg with
    | nil => intro id j _ hmem; cases hmem
    | cons e t ih =>
      intro id j hd hmem
      rw [keys_cons] at hd
      obtain ⟨hd1, hd2⟩ := List.nodup_cons.mp hd
      rcases List.mem_cons.mp hmem with hh | ht
      · have he : e = (id, j) := hh.symm
        subst he
        have hnot : id ∉ keys t := hd1
        simp only [List.flatMap_cons, List.countP_append,
          countP_entry_self id j, countP_flatMap_zero id t hnot]
        omega
      · have h1 : e.1 ≠ id := fun hEq => hd1 (hEq ▸ mem_keys_of_mem ht)
        simp only [List.flatMap_cons, List.countP_append, countP_entry_ne e.2 h1,
          ih hd2 ht]
        omega
  intro reg id j hd hmem
  rw [complete_snd_bind]
  exact main reg hd hmem

theorem complete_snd_decomp {reg : Reg} {id : String} {j : Job} (hmem : (id, j) ∈ reg) :
    ∃ pre post, (complete_jobs reg).2 = pre ++ entryEvs id j ++ post := by
  obtain ⟨s, t, hst⟩ := List.append_of_mem hmem
  refine ⟨s.flatMap (fun e => entryEvs e.1 e.2), t.flatMap (fun e => entryEvs e.1 e.2), ?_⟩
  rw [complete_snd_bind, hst]
  simp [List.flatMap_append]

theorem killProc_mem_entryEvs {a idE : String} {jE : Job}
    (h : Ev.killProc a ∈ entryEvs idE jE) : a = idE ∧ jE.aliveAfterGrace = true := by
  unfold entryEvs readyEvs timeoutEvs at h
  split_ifs at h <;> simp_all [List.mem_append]

/-! ### Claim theorems about the reap phase -/

/-- C2: exactly-once reaping. With distinct registry keys, every entry that is
ready or timed out is removed from the registry by the reap pass and reported
to the store by exactly one finish_job or fail_job call, and every other
entry stays registered and is not reported at all. -/
theorem exactly_once_reaping (reg : Reg) (id : String) (j : Job)
    (hd : (keys reg).Nodup) (hmem : (id, j) ∈ reg) :
    (reaps j = true →
       id ∉ keys (complete_jobs reg).1 ∧
       List.countP (fun e => isReportFor id e) (complete_jobs reg).2 = 1) ∧
    (reaps j = false →
       id ∈ keys (complete_jobs reg).1 ∧
       List.countP (fun e => isReportFor id e) (complete_jobs reg).2 = 0) := by
  constructor
  · intro hre
    refine ⟨not_mem_keys_complete_of_reaped hd hmem hre, ?_⟩
    simp [count_reports reg hd hmem, hre]
  · intro hre
    refine ⟨mem_keys_complete_of_not_reaped hd hmem hre, ?_⟩
    simp [count_reports reg hd hmem, hre]

/-- C3: ready-reap postcondition. A ready entry is removed from the registry;
when the child reported no error the store is told finish_job with the
child's result, no error and the child process exit code, and when it
reported a (nonempty) error the store is told fail_job with the error and the
fixed exit code 1. -/
theorem ready_reap_postcondition (reg : Reg) (id : String) (j : Job)
    (hd : (keys reg).Nodup) (hmem : (id, j) ∈ reg) (hready : j.ready = true) :
    id ∉ keys (complete_jobs reg).1 ∧
    (j.msg.exc = none →
       Ev.finishJob id { result := j.msg.result, exc := none, exitcode := j.exitcode }
         ∈ (complete_jobs reg).2) ∧
    (∀ s, j.msg.exc = some s → s ≠ "" →
       Ev.failJob id { result := j.msg.result, exc := some s, exitcode := some 1 }
         ∈ (complete_jobs reg).2) := by
  have hre : reaps j = true := by simp [reaps, hready]
  obtain ⟨pre, post, hdec⟩ := complete_snd_decomp hmem
  refine ⟨not_mem_keys_complete_of_reaped hd hmem hre, ?_, ?_⟩
  · intro hexc
    rw [hdec]
    simp [entryEvs, hready, readyEvs, readyResult, pyFalsy, hexc, List.mem_append]
  · intro s hexc hs
    rw [hdec]
    simp [entryEvs, hready, readyEvs, readyResult, pyFalsy, hexc, hs, List.mem_append]

/-- C4: timeout-reap postcondition and ordering. A timed-out, not-ready entry
is removed from the registry, and its contribution to the trace pops the
registry entry strictly before the terminate request, runs the escalation,
and ends with a fail_job report carrying the fixed "timed out" description
and the (possibly absent) exit code observed after termination, followed by
the commit. -/
theorem timeout_reap_postcondition (reg : Reg) (id : String) (j : Job)
    (hd : (keys reg).Nodup) (hmem : (id, j) ∈ reg)
    (hnr : j.ready = false) (hto : j.timed_out = true) :
    id ∉ keys (complete_jobs reg).1 ∧
    ∃ pre post, (complete_jobs reg).2 =
      pre ++ [Ev.popReg id, Ev.terminateProc id, Ev.sleepSec 3]
        ++ (if j.aliveAfterGrace then [Ev.killProc id, Ev.sleepSec 1] else [])
        ++ [if j.closeRaises then Ev.closeFailed id else Ev.closeOk id,
            Ev.failJob id { result := Value.vnone, exc := some "timed out",
                            exitcode := j.exitcodeAfterTerm },
            Ev.commitEv] ++ post := by
  have hre : reaps j = true := by simp [reaps, hto]
  obtain ⟨pre, post, hdec⟩ := complete_snd_decomp hmem
  refine ⟨not_mem_keys_complete_of_reaped hd hmem hre, pre, post, ?_⟩
  rw [hdec]
  simp [entryEvs, hnr, hto, timeoutEvs, timeoutResult, List.append_assoc]

/-- C5: termination escalation. For a timed-out, not-ready entry the trace
holds the contiguous sequence terminate, sleep 3, then kill and sleep 1
exactly when the process was still alive after the grace window, then the
close of the execution context; a kill event for this job occurs if and only
if the process was still alive after the grace window; and if close raised,
the error is only logged: the fail_job report is still issued. -/
theorem termination_escalation (reg : Reg) (id : String) (j : Job)
    (hd : (keys reg).Nodup) (hmem : (id, j) ∈ reg)
    (hnr : j.ready = false) (hto : j.timed_out = true) :
    (Ev.killProc id ∈ (complete_jobs reg).2 ↔ j.aliveAfterGrace = true) ∧
    (∃ pre post, (complete_jobs reg).2 =
       pre ++ ([Ev.terminateProc id, Ev.sleepSec 3]
         ++ (if j.aliveAfterGrace then [Ev.killProc id, Ev.sleepSec 1] else [])
         ++ [if j.closeRaises then Ev.closeFailed id else Ev.closeOk id]) ++ post) ∧
    (j.closeRaises = true →
       Ev.closeFailed id ∈ (complete_jobs reg).2 ∧
       Ev.failJob id { result := Value.vnone, exc := some "timed out",
                       exitcode := j.exitcodeAfterTerm } ∈ (complete_jobs reg).2) := by
  obtain ⟨pre, post, hdec⟩ := complete_snd_decomp hmem
  have hentry : entryEvs id j = timeoutEvs id j := by
    simp [entryEvs, hnr, hto]
  refine ⟨⟨?_, ?_⟩, ?_, ?_⟩
  · intro hk
    rw [complete_snd_bind] at hk
    obtain ⟨e, he, hke⟩ := List.mem_flatMap.mp hk
    obtain ⟨heq, halive⟩ := killProc_mem_entryEvs hke
    have hpair : (id, e.2) ∈ reg := by
      have : e = (e.1, e.2) := rfl
      rw [this, ← heq] at he
      exact he
    have : e.2 = j := key_unique reg hd hpair hmem
    rwa [this] at halive
  · intro halive
    rw [hdec, hentry]
    simp [timeoutEvs, halive, List.mem_append]
  · refine ⟨pre ++ [Ev.popReg id],
      [Ev.failJob id (timeoutResult j), Ev.commitEv] ++ post, ?_⟩
    rw [hdec, hentry]
    simp [timeoutEvs, List.append_assoc]
  · intro hclose
    constructor
    · rw [hdec, hentry]
      simp [timeoutEvs, hclose, List.mem_append]
    · rw [hdec, hentry]
      simp [timeoutEvs, timeoutResult, List.mem_append]

theorem formatExc_ne_empty (e : String) : formatExc e ≠ "" := by
  intro h
  have hlen := congrArg String.length h
  rw [formatExc, String.length_append] at hlen
  simp at hlen
  exact absurd hlen.1 (by decide)

/-- C6: child one-shot message contract. The spawned execution context sends
exactly one message: the function's value with no error on normal return, and
no value with a nonempty formatted error description when the try body raised
— including the unresolvable-reference case — so no exception escapes to the
dispatcher. -/
theorem child_one_shot (env : ChildEnv) (row : JobRow) :
    (Job.runSends env row).length = 1 ∧
    (∀ v, tryBody env row.payload = Except.ok v →
       Job.runSends env row = [{ result := v, exc := none }]) ∧
    (∀ e, tryBody env row.payload = Except.error e →
       Job.runSends env row = [{ result := Value.vnone, exc := some (formatExc e) }] ∧
       formatExc e ≠ "") ∧
    (rsplitDot row.payload.func = none →
       ∃ d, d ≠ "" ∧ Job.runSends env row = [{ result := Value.vnone, exc := some d }]) := by
  refine ⟨rfl, ?_, ?_, ?_⟩
  · intro v hv
    simp [Job.runSends, Job.run, hv]
  · intro e he
    exact ⟨by simp [Job.runSends, Job.run, he], formatExc_ne_empty e⟩
  · intro hnone
    refine ⟨formatExc "ValueError: not enough values to unpack",
      formatExc_ne_empty _, ?_⟩
    simp [Job.runSends, Job.run, tryBody, hnone]

/-! ### Lemmas about the discovery phases and the tick -/

theorem popKey_length_le (k : String) : ∀ l : Reg, (popKey k l).length ≤ l.length := by
  intro l
  induction l with
  | nil => simp [popKey]
  | cons e t ih =>
    by_cases h : e.1 = k
    · simp only [popKey, h, if_pos, List.length_cons]
      omega
    · simp only [popKey, h, if_neg, not_false_iff, List.length_cons]
      omega

theorem completeAux_length_le : ∀ (l : List (String × Job)) (reg : Reg),
    (completeAux l reg).1.length ≤ reg.length := by
  intro l
  induction l with
  | nil => intro reg; simp [completeAux]
  | cons e rest ih =>
    intro reg
    obtain ⟨id, j⟩ := e
    by_cases hr : j.ready
    · simp only [completeAux, hr, if_pos]
      exact le_trans (ih (popKey id reg)) (popKey_length_le id reg)
    · by_cases ht : j.timed_out
      · simp only [completeAux, hr, ht, Bool.false_eq_true, if_neg, if_pos, not_false_iff]
        exact le_trans (ih (popKey id reg)) (popKey_length_le id reg)
      · simp only [completeAux, hr, ht, Bool.false_eq_true, if_neg, not_false_iff]
        exact ih reg

theorem complete_length_le (reg : Reg) : (complete_jobs reg).1.length ≤ reg.length :=
  completeAux_length_le reg reg

theorem popKey_keys_not_mem (k idX : String) : ∀ l : Reg,
    idX ∉ keys l → idX ∉ keys (popKey k l) := by
  intro l
  induction l with
  | nil => intro h; simpa [popKey] using h
  | cons e t ih =>
    intro h
    rw [keys_cons] at h
    have h1 : idX ≠ e.1 := fun hEq => h (by simp [hEq])
    have h2 : idX ∉ keys t := fun hm => h (by simp [hm])
    by_cases hek : e.1 = k
    · simpa [popKey, hek] using h2
    · simp only [popKey, hek, if_neg, not_false_iff, keys_cons]
      intro hm
      rcases List.mem_cons.mp hm with hm1 | hm2
      · exact h1 hm1
      · exact ih h2 hm2

theorem completeAux_keys_not_mem (idX : String) : ∀ (l : List (String × Job)) (reg : Reg),
    idX ∉ keys reg → idX ∉ keys (completeAux l reg).1 := by
  intro l
  induction l with
  | nil => intro reg h; simpa [completeAux] using h
  | cons e rest ih =>
    intro reg h
    obtain ⟨id, j⟩ := e
    by_cases hr : j.ready
    · simp only [completeAux, hr, if_pos]
      exact ih (popKey id reg) (popKey_keys_not_mem id idX reg h)
    · by_cases ht : j.timed_out
      · simp only [completeAux, hr, ht, Bool.false_eq_true, if_neg, if_pos, not_false_iff]
        exact ih (popKey id reg) (popKey_keys_not_mem id idX reg h)
      · simp only [completeAux, hr, ht, Bool.false_eq_true, if_neg, not_false_iff]
        exact ih reg h

theorem notifyPhase_length_le (cfg : Config) (env : TickEnv) :
    ∀ (nfs : List Notif) (reg : Reg), reg.length ≤ cfg.procs →
    (notifyPhase cfg env nfs reg).1.length ≤ cfg.procs := by
  intro nfs
  induction nfs with
  | nil => intro reg h; simpa [notifyPhase] using h
  | cons nf rest ih =>
    intro reg h
    by_cases hc : nf.queue ∈ cfg.queues ∧ nf.jobId ∉ keys reg ∧ reg.length < cfg.procs
    · cases hrow : env.reserveJob nf.jobId with
      | some row =>
        simp only [notifyPhase, hc, if_pos, hrow]
        exact ih (reg ++ [(nf.jobId, env.spawn row)]) (by simp; omega)
      | none =>
        simp only [notifyPhase, hc, if_pos, hrow]
        exact ih reg h
    · simp only [notifyPhase, hc, if_neg, not_false_iff]
      exact ih reg h

theorem notifyPhase_trace_shape (cfg : Config) (env : TickEnv) :
    ∀ (nfs : List Notif) (reg : Reg) (e : Ev), e ∈ (notifyPhase cfg env nfs reg).2 →
    (∃ i, e = Ev.reserveCall i) ∨ e = Ev.commitEv := by
  intro nfs
  induction nfs with
  | nil => intro reg e h; simp [notifyPhase] at h
  | cons nf rest ih =>
    intro reg e h
    by_cases hc : nf.queue ∈ cfg.queues ∧ nf.jobId ∉ keys reg ∧ reg.length < cfg.procs
    · cases hrow : env.reserveJob nf.jobId with
      | some row =>
        simp [notifyPhase, hc, hrow] at h
        rcases h with h1 | h2 | h3
        · exact Or.inl ⟨nf.jobId, h1⟩
        · exact Or.inr h2
        · exact ih _ e h3
      | none =>
        simp [notifyPhase, hc, hrow] at h
        rcases h with h1 | h2
        · exact Or.inl ⟨nf.jobId, h1⟩
        · exact ih _ e h2
    · simp only [notifyPhase, hc, if_neg, not_false_iff] at h
      exact ih _ e h

theorem notifyPhase_keys_not_mem (cfg : Config) (env : TickEnv) (idX : String) :
    ∀ (nfs : List Notif) (reg : Reg), idX ∉ keys reg →
    (∀ nf ∈ nfs, nf.jobId ≠ idX) → idX ∉ keys (notifyPhase cfg env nfs reg).1 := by
  intro nfs
  induction nfs with
  | nil => intro reg h _; simpa [notifyPhase] using h
  | cons nf rest ih =>
    intro reg h hnf
    have hhd : nf.jobId ≠ idX := hnf nf (by simp)
    have htl : ∀ x ∈ rest, x.jobId ≠ idX := fun x hx => hnf x (by simp [hx])
    by_cases hc : nf.queue ∈ cfg.queues ∧ nf.jobId ∉ keys reg ∧ reg.length < cfg.procs
    · cases hrow : env.reserveJob nf.jobId with
      | some row =>
        simp only [notifyPhase, hc, if_pos, hrow]
        refine ih (reg ++ [(nf.jobId, env.spawn row)]) ?_ htl
        simp only [keys, List.map_append, List.mem_append]
        rintro (h1 | h2)
        · exact h h1
        · simp at h2
          exact hhd h2.symm
      | none =>
        simp only [notifyPhase, hc, if_pos, hrow]
        exact ih reg h htl
    · simp only [notifyPhase, hc, if_neg, not_false_iff]
      exact ih reg h htl

theorem pollRows_length_le (env : TickEnv) :
    ∀ (rows : List JobRow) (reg reg2 : Reg), (pollRows env rows reg).1 = some reg2 →
    reg2.length ≤ reg.length + rows.length := by
  intro rows
  induction rows with
  | nil =>
    intro reg reg2 h
    simp [pollRows] at h
    simp [← h]
  | cons row rest ih =>
    intro reg reg2 h
    by_cases hin : row.id ∈ keys reg
    · simp [pollRows, hin] at h
    · simp only [pollRows, hin, if_neg, not_false_iff] at h
      have := ih (reg ++ [(row.id, env.spawn row)]) reg2 h
      simp at this
      simp
      omega

theorem pollRows_trace_shape (env : TickEnv) :
    ∀ (rows : List JobRow) (reg : Reg) (e : Ev), e ∈ (pollRows env rows reg).2 →
    e = Ev.commitEv ∨ ∃ i, e = Ev.assertHalt i := by
  intro rows
  induction rows with
  | nil =>
    intro reg e h
    simp [pollRows] at h
    exact Or.inl h
  | cons row rest ih =>
    intro reg e h
    by_cases hin : row.id ∈ keys reg
    · simp [pollRows, hin] at h
      exact Or.inr ⟨row.id, h⟩
    · simp only [pollRows, hin, if_neg, not_false_iff] at h
      exact ih _ e h

theorem pollRows_keys_not_mem (env : TickEnv) (idX : String) :
    ∀ (rows : List JobRow) (reg reg2 : Reg), (pollRows env rows reg).1 = some reg2 →
    idX ∉ keys reg → (∀ r ∈ rows, r.id ≠ idX) → idX ∉ keys reg2 := by
  intro rows
  induction rows with
  | nil =>
    intro reg reg2 h hk _
    simp [pollRows] at h
    rwa [← h]
  | cons row rest ih =>
    intro reg reg2 h hk hr
    have hhd : row.id ≠ idX := hr row (by simp)
    have htl : ∀ x ∈ rest, x.id ≠ idX := fun x hx => hr x (by simp [hx])
    by_cases hin : row.id ∈ keys reg
    · simp [pollRows, hin] at h
    · simp only [pollRows, hin, if_neg, not_false_iff] at h
      refine ih (reg ++ [(row.id, env.spawn row)]) reg2 h ?_ htl
      simp only [keys, List.map_append, List.mem_append]
      rintro (h1 | h2)
      · exact hk h1
      · simp at h2
        exact hhd h2.symm

theorem pollRows_halt (env : TickEnv) :
    ∀ (rows : List JobRow) (reg : Reg) (row : JobRow), row ∈ rows → row.id ∈ keys reg →
    (pollRows env rows reg).1 = none := by
  intro rows
  induction rows with
  | nil => intro reg row h; cases h
  | cons r rest ih =>
    intro reg row hmem hin
    by_cases hrk : r.id ∈ keys reg
    · simp [pollRows, hrk]
    · simp only [pollRows, hrk, if_neg, not_false_iff]
      rcases List.mem_cons.mp hmem with hh | ht
      · exact absurd (hh ▸ hin) hrk
      · refine ih (reg ++ [(r.id, env.spawn r)]) row ht ?_
        simp only [keys, List.map_append, List.mem_append]
        exact Or.inl hin

theorem bulkClaim_not_mem_entryEvs (m : Int) (idE : String) (jE : Job) :
    Ev.bulkClaim m ∉ entryEvs idE jE := by
  unfold entryEvs readyEvs timeoutEvs
  split_ifs <;> simp

theorem bulkClaim_not_mem_complete (reg : Reg) (m : Int) :
    Ev.bulkClaim m ∉ (complete_jobs reg).2 := by
  rw [complete_snd_bind]
  intro h
  obtain ⟨e, _, he⟩ := List.mem_flatMap.mp h
  exact bulkClaim_not_mem_entryEvs m e.1 e.2 he

theorem releaseLost_not_mem_entryEvs (ks : List String) (idE : String) (jE : Job) :
    Ev.releaseLost ks ∉ entryEvs idE jE := by
  unfold entryEvs readyEvs timeoutEvs
  split_ifs <;> simp

theorem releaseLost_not_mem_complete (reg : Reg) (ks : List String) :
    Ev.releaseLost ks ∉ (complete_jobs reg).2 := by
  rw [complete_snd_bind]
  intro h
  obtain ⟨e, _, he⟩ := List.mem_flatMap.mp h
  exact releaseLost_not_mem_entryEvs ks e.1 e.2 he

theorem entryEvs_not_reconcile (idE : String) (jE : Job) :
    ∀ e ∈ entryEvs idE jE, isReconcileEv e = false := by
  intro e he
  cases e <;> try rfl
  exact absurd he (releaseLost_not_mem_entryEvs _ _ _)

theorem reconcileEvs_shape (env : TickEnv) (st : St) :
    ∀ e ∈ reconcileEvs env st, e = Ev.releaseLost (keys st.jobs) ∨ e = Ev.commitEv := by
  intro e he
  unfold reconcileEvs at he
  split_ifs at he <;> simp_all

theorem tick_notify (cfg : Config) (env : TickEnv) (st : St)
    (hsel : env.selectReady = true) :
    tick cfg env st =
      (some ⟨(notifyPhase cfg env env.notifies (complete_jobs st.jobs).1).1, st.it + 1⟩,
       reconcileEvs env st ++ (complete_jobs st.jobs).2
         ++ (notifyPhase cfg env env.notifies (complete_jobs st.jobs).1).2) := by
  simp [tick, hsel]

theorem tick_poll_pos (cfg : Config) (env : TickEnv) (st : St)
    (hsel : env.selectReady = false)
    (hn : 0 < capacity cfg (complete_jobs st.jobs).1) :
    tick cfg env st =
      ((pollRows env (env.bulkRows (capacity cfg (complete_jobs st.jobs).1))
          (complete_jobs st.jobs).1).1.map (fun reg2 => ⟨reg2, st.it + 1⟩),
       reconcileEvs env st ++ (complete_jobs st.jobs).2
         ++ Ev.bulkClaim (capacity cfg (complete_jobs st.jobs).1)
           :: (pollRows env (env.bulkRows (capacity cfg (complete_jobs st.jobs).1))
                 (complete_jobs st.jobs).1).2) := by
  simp [tick, hsel, hn]

theorem tick_poll_nonpos (cfg : Config) (env : TickEnv) (st : St)
    (hsel : env.selectReady = false)
    (hn : ¬ 0 < capacity cfg (complete_jobs st.jobs).1) :
    tick cfg env st =
      (some ⟨(complete_jobs st.jobs).1, st.it + 1⟩,
       reconcileEvs env st ++ (complete_jobs st.jobs).2) := by
  simp [tick, hsel, hn]

/-! ### Claim theorems about the dispatch loop -/

/-- C1: capacity invariant. If the store honours the bulk-claim contract
(at most n rows for a request of n) and the registry is within the
concurrency limit before a tick, then it is still within the limit after the
tick: the reap pass only shrinks it, the notify path re-checks the bound per
notification, and the poll path requests only the remaining capacity. -/
theorem capacity_invariant (cfg : Config) (env : TickEnv) (st st2 : St)
    (hb : ∀ n : Int, 0 < n → ((env.bulkRows n).length : Int) ≤ n)
    (hpre : st.jobs.length ≤ cfg.procs)
    (hres : (tick cfg env st).1 = some st2) :
    st2.jobs.length ≤ cfg.procs := by
  have hr1 : (complete_jobs st.jobs).1.length ≤ cfg.procs :=
    le_trans (complete_length_le st.jobs) hpre
  cases hsel : env.selectReady with
  | true =>
    rw [tick_notify cfg env st hsel] at hres
    have hst2 := Option.some.inj hres
    rw [← hst2]
    exact notifyPhase_length_le cfg env env.notifies (complete_jobs st.jobs).1 hr1
  | false =>
    by_cases hn : 0 < capacity cfg (complete_jobs st.jobs).1
    · rw [tick_poll_pos cfg env st hsel hn] at hres
      cases hpoll : (pollRows env (env.bulkRows (capacity cfg (complete_jobs st.jobs).1))
          (complete_jobs st.jobs).1).1 with
      | none => rw [hpoll] at hres; simp at hres
      | some reg2 =>
        rw [hpoll] at hres
        simp at hres
        have hlen := pollRows_length_le env
          (env.bulkRows (capacity cfg (complete_jobs st.jobs).1))
          (complete_jobs st.jobs).1 reg2 hpoll
        have hrows := hb (capacity cfg (complete_jobs st.jobs).1) hn
        have hcap : capacity cfg (complete_jobs st.jobs).1
            = (cfg.procs : Int) - ((complete_jobs st.jobs).1.length : Int) := rfl
        have hst2 : st2.jobs = reg2 := by rw [← hres]
        rw [hst2]
        omega
    · rw [tick_poll_nonpos cfg env st hsel hn] at hres
      have hst2 := Option.some.inj hres
      rw [← hst2]
      exact hr1

/-- C7: notify-path filter. A drained notification leads to a targeted
reserve_job attempt exactly when its queue is configured, its job id is not
already registered and the registry is below the limit: a filtered-out
notification changes nothing, a passing one issues the reserve_job call, a
passing one for which the store returns no row leaves the registry exactly
as the remaining notifications would leave it, and the drain never raises
the duplicate-claim assertion. -/
theorem notify_path_filter (cfg : Config) (env : TickEnv) (nf : Notif)
    (rest : List Notif) (reg : Reg) :
    (¬(nf.queue ∈ cfg.queues ∧ nf.jobId ∉ keys reg ∧ reg.length < cfg.procs) →
       notifyPhase cfg env (nf :: rest) reg = notifyPhase cfg env rest reg) ∧
    ((nf.queue ∈ cfg.queues ∧ nf.jobId ∉ keys reg ∧ reg.length < cfg.procs) →
       Ev.reserveCall nf.jobId ∈ (notifyPhase cfg env (nf :: rest) reg).2 ∧
       (env.reserveJob nf.jobId = none →
          (notifyPhase cfg env (nf :: rest) reg).1 = (notifyPhase cfg env rest reg).1 ∧
          (notifyPhase cfg env (nf :: rest) reg).2 =
            Ev.reserveCall nf.jobId :: (notifyPhase cfg env rest reg).2)) ∧
    (∀ i, Ev.assertHalt i ∉ (notifyPhase cfg env (nf :: rest) reg).2) := by
  refine ⟨?_, ?_, ?_⟩
  · intro hc
    simp [notifyPhase, hc]
  · intro hc
    constructor
    · cases hrow : env.reserveJob nf.jobId <;> simp [notifyPhase, hc, hrow]
    · intro hrow
      constructor <;> simp [notifyPhase, hc, hrow]
  · intro i hmem
    rcases notifyPhase_trace_shape cfg env (nf :: rest) reg _ hmem with ⟨k, hk⟩ | hk <;>
      simp at hk

/-- C8: poll-path contract. A bulk claim happens only on a tick whose
notification wait reported no event; when it happens its requested count is
exactly the positive remaining capacity computed after the reap pass (and no
other bulk request is made); and if the store hands back a row whose id is
already registered, the tick ends in the halted state rather than a new
registry. -/
theorem poll_path_contract (cfg : Config) (env : TickEnv) (st : St) :
    (env.selectReady = true → ∀ m, Ev.bulkClaim m ∉ (tick cfg env st).2) ∧
    (env.selectReady = false →
       (0 < capacity cfg (complete_jobs st.jobs).1 →
          Ev.bulkClaim (capacity cfg (complete_jobs st.jobs).1) ∈ (tick cfg env st).2) ∧
       (∀ m, Ev.bulkClaim m ∈ (tick cfg env st).2 →
          m = capacity cfg (complete_jobs st.jobs).1 ∧ 0 < m) ∧
       (0 < capacity cfg (complete_jobs st.jobs).1 →
          ∀ row ∈ env.bulkRows (capacity cfg (complete_jobs st.jobs).1),
            row.id ∈ keys (complete_jobs st.jobs).1 →
            (tick cfg env st).1 = none)) := by
  refine ⟨?_, ?_⟩
  · intro hsel m hmem
    rw [tick_notify cfg env st hsel] at hmem
    simp only [List.mem_append] at hmem
    rcases hmem with (h | h) | h
    · rcases reconcileEvs_shape env st _ h with h1 | h1 <;> simp at h1
    · exact bulkClaim_not_mem_complete st.jobs m h
    · rcases notifyPhase_trace_shape cfg env env.notifies (complete_jobs st.jobs).1 _ h with
        ⟨k, hk⟩ | hk <;> simp at hk
  · intro hsel
    refine ⟨?_, ?_, ?_⟩
    · intro hn
      rw [tick_poll_pos cfg env st hsel hn]
      simp
    · intro m hmem
      by_cases hn : 0 < capacity cfg (complete_jobs st.jobs).1
      · rw [tick_poll_pos cfg env st hsel hn] at hmem
        simp only [List.mem_append, List.mem_cons] at hmem
        rcases hmem with (h | h) | h | h
        · rcases reconcileEvs_shape env st _ h with h1 | h1 <;> simp at h1
        · exact absurd h (bulkClaim_not_mem_complete st.jobs m)
        · have hm := Ev.bulkClaim.inj h
          exact ⟨hm, hm ▸ hn⟩
        · rcases pollRows_trace_shape env _ _ _ h with hk | ⟨i, hk⟩ <;> simp at hk
      · rw [tick_poll_nonpos cfg env st hsel hn] at hmem
        simp only [List.mem_append] at hmem
        rcases hmem with h | h
        · rcases reconcileEvs_shape env st _ h with h1 | h1 <;> simp at h1
        · exact absurd h (bulkClaim_not_mem_complete st.jobs m)
    · intro hn row hrow hdup
      rw [tick_poll_pos cfg env st hsel hn]
      rw [pollRows_halt env (env.bulkRows (capacity cfg (complete_jobs st.jobs).1))
        (complete_jobs st.jobs).1 row hrow hdup]
      rfl

/-- C9 (amended): per-tick phase order as the code implements it. Every tick's
trace is the reconciliation block's events, then the reap pass's events, then
the discovery events: the reconciliation sweep (when due) runs before the
reap phase, and both run before any claim activity of the tick. -/
theorem reconcile_before_reap_order (cfg : Config) (env : TickEnv) (st : St) :
    ∃ rec disc, (tick cfg env st).2 = rec ++ (complete_jobs st.jobs).2 ++ disc ∧
      (∀ e ∈ rec, isReconcileEv e = true ∨ e = Ev.commitEv) ∧
      (∀ e ∈ (complete_jobs st.jobs).2, isReconcileEv e = false) ∧
      (∀ e ∈ disc, isReapEv e = false ∧ isReconcileEv e = false) := by
  have hrec : ∀ e ∈ reconcileEvs env st, isReconcileEv e = true ∨ e = Ev.commitEv := by
    intro e he
    rcases reconcileEvs_shape env st e he with h | h
    · left; rw [h]; rfl
    · right; exact h
  have hreap : ∀ e ∈ (complete_jobs st.jobs).2, isReconcileEv e = false := by
    intro e he
    rw [complete_snd_bind] at he
    obtain ⟨x, _, hx⟩ := List.mem_flatMap.mp he
    exact entryEvs_not_reconcile x.1 x.2 e hx
  cases hsel : env.selectReady with
  | true =>
    refine ⟨reconcileEvs env st,
      (notifyPhase cfg env env.notifies (complete_jobs st.jobs).1).2,
      ?_, hrec, hreap, ?_⟩
    · rw [tick_notify cfg env st hsel]
    · intro e he
      rcases notifyPhase_trace_shape cfg env env.notifies (complete_jobs st.jobs).1 e he with
        ⟨i, hi⟩ | hi <;> rw [hi] <;> exact ⟨rfl, rfl⟩
  | false =>
    by_cases hn : 0 < capacity cfg (complete_jobs st.jobs).1
    · refine ⟨reconcileEvs env st,
        Ev.bulkClaim (capacity cfg (complete_jobs st.jobs).1)
          :: (pollRows env (env.bulkRows (capacity cfg (complete_jobs st.jobs).1))
                (complete_jobs st.jobs).1).2,
        ?_, hrec, hreap, ?_⟩
      · rw [tick_poll_pos cfg env st hsel hn]
      · intro e he
        rcases List.mem_cons.mp he with h | h
        · rw [h]; exact ⟨rfl, rfl⟩
        · rcases pollRows_trace_shape env _ _ e h with hk | ⟨i, hk⟩ <;> rw [hk] <;>
            exact ⟨rfl, rfl⟩
    · refine ⟨reconcileEvs env st, [], ?_, hrec, hreap, by simp⟩
      rw [tick_poll_nonpos cfg env st hsel hn]
      simp

/-- Concrete jobs and tick inputs used by the closed-instance theorems. -/
def jHandleDone : Job :=
  { msg := { result := Value.vstr "Passed", exc := none },
    exitcode := some 0, elapsed := 1, timeout := 5,
    aliveAfterGrace := false, exitcodeAfterTerm := some 0, closeRaises := false }

/-- A handle whose child is still running past its deadline: not ready, timed
out, still alive after the grace window. -/
def jHandleHung : Job :=
  { msg := { result := Value.vnone, exc := none },
    exitcode := none, elapsed := 10, timeout := 5,
    aliveAfterGrace := true, exitcodeAfterTerm := some (-9), closeRaises := false }

/-- A handle whose child is still running within its deadline. -/
def jHandleLive : Job :=
  { msg := { result := Value.vnone, exc := none },
    exitcode := none, elapsed := 1, timeout := 5,
    aliveAfterGrace := false, exitcodeAfterTerm := none, closeRaises := false }

def cfgOne : Config := { queues := ["default"], procs := 4 }

/-- A tick's inputs on an idle system: nothing lost, the notification wait
timed out, the store has nothing to hand out. -/
def envIdle : TickEnv :=
  { lostRows := [], selectReady := false, notifies := [],
    reserveJob := fun _ => none, bulkRows := fun _ => [],
    spawn := fun _ => jHandleLive }

def stOne : St := { jobs := [("j1", jHandleDone)], it := 0 }

/-- C9 counterexample: on the first tick with one ready job in the registry,
the trace contains a reap event (the registry pop of job j1) after the
reconciliation sweep's release_lost_jobs event, so the claim that the reap
phase runs before the periodic reconciliation sweep is false: the code runs
the sweep first. -/
theorem reap_before_reconcile_cex :
    reapAfterReconcile (tick cfgOne envIdle stOne).2 false = true := by decide

/-- C10: reconciliation cadence. The sweep runs exactly on ticks whose
incremented counter is 1 modulo 10 — in particular on the very first
iteration, where the release_lost_jobs call is the first event of the trace,
before reaping, waiting or claiming — its commit happens only when rows came
back, the counter advances by one each tick, and a released row's id is never
inserted into the registry (it can only enter through a reserve_job or bulk
claim of its id). -/
theorem reconcile_cadence (cfg : Config) (env : TickEnv) (st : St) :
    ((st.it + 1) % 10 = 1 →
       ∃ disc, (tick cfg env st).2 =
         Ev.releaseLost (keys st.jobs)
           :: ((if env.lostRows.isEmpty then [] else [Ev.commitEv])
             ++ ((complete_jobs st.jobs).2 ++ disc))) ∧
    ((st.it + 1) % 10 ≠ 1 → ∀ ks, Ev.releaseLost ks ∉ (tick cfg env st).2) ∧
    (∀ st2, (tick cfg env st).1 = some st2 → st2.it = st.it + 1) ∧
    (∀ st2, (tick cfg env st).1 = some st2 →
       ∀ row ∈ env.lostRows, row.id ∉ keys st.jobs →
         (∀ nf ∈ env.notifies, nf.jobId ≠ row.id) →
         (∀ m : Int, ∀ r2 ∈ env.bulkRows m, r2.id ≠ row.id) →
         row.id ∉ keys st2.jobs) := by
  have hrecdue : (st.it + 1) % 10 = 1 →
      reconcileEvs env st =
        Ev.releaseLost (keys st.jobs)
          :: (if env.lostRows.isEmpty then [] else [Ev.commitEv]) := by
    intro hdue
    simp [reconcileEvs, hdue]
  have hrecskip : (st.it + 1) % 10 ≠ 1 → reconcileEvs env st = [] := by
    intro hdue
    simp [reconcileEvs, hdue]
  refine ⟨?_, ?_, ?_, ?_⟩
  · intro hdue
    cases hsel : env.selectReady with
    | true =>
      refine ⟨(notifyPhase cfg env env.notifies (complete_jobs st.jobs).1).2, ?_⟩
      rw [tick_notify cfg env st hsel, hrecdue hdue]
      simp [List.append_assoc]
    | false =>
      by_cases hn : 0 < capacity cfg (complete_jobs st.jobs).1
      · refine ⟨Ev.bulkClaim (capacity cfg (complete_jobs st.jobs).1)
          :: (pollRows env (env.bulkRows (capacity cfg (complete_jobs st.jobs).1))
                (complete_jobs st.jobs).1).2, ?_⟩
        rw [tick_poll_pos cfg env st hsel hn, hrecdue hdue]
        simp [List.append_assoc]
      · refine ⟨[], ?_⟩
        rw [tick_poll_nonpos cfg env st hsel hn, hrecdue hdue]
        simp [List.append_assoc]
  · intro hdue ks hmem
    cases hsel : env.selectReady with
    | true =>
      rw [tick_notify cfg env st hsel, hrecskip hdue] at hmem
      simp only [List.nil_append, List.mem_append] at hmem
      rcases hmem with h | h
      · exact releaseLost_not_mem_complete st.jobs ks h
      · rcases notifyPhase_trace_shape cfg env env.notifies (complete_jobs st.jobs).1 _ h with
          ⟨i, hi⟩ | hi <;> simp at hi
    | false =>
      by_cases hn : 0 < capacity cfg (complete_jobs st.jobs).1
      · rw [tick_poll_pos cfg env st hsel hn, hrecskip hdue] at hmem
        simp only [List.nil_append, List.mem_append, List.mem_cons] at hmem
        rcases hmem with h | h | h
        · exact releaseLost_not_mem_complete st.jobs ks h
        · simp at h
        · rcases pollRows_trace_shape env _ _ _ h with hk | ⟨i, hk⟩ <;> simp at hk
      · rw [tick_poll_nonpos cfg env st hsel hn, hrecskip hdue] at hmem
        simp only [List.nil_append] at hmem
        exact releaseLost_not_mem_complete st.jobs ks hmem
  · intro st2 hres
    cases hsel : env.selectReady with
    | true =>
      rw [tick_notify cfg env st hsel] at hres
      have := Option.some.inj hres
      rw [← this]
    | false =>
      by_cases hn : 0 < capacity cfg (complete_jobs st.jobs).1
      · rw [tick_poll_pos cfg env st hsel hn] at hres
        cases hpoll : (pollRows env (env.bulkRows (capacity cfg (complete_jobs st.jobs).1))
            (complete_jobs st.jobs).1).1 with
        | none => rw [hpoll] at hres; simp at hres
        | some reg2 =>
          rw [hpoll] at hres
          simp at hres
          rw [← hres]
      · rw [tick_poll_nonpos cfg env st hsel hn] at hres
        have := Option.some.inj hres
        rw [← this]
  · intro st2 hres row hrow hnotin hnfs hbulk
    have h1 : row.id ∉ keys (complete_jobs st.jobs).1 :=
      completeAux_keys_not_mem row.id st.jobs st.jobs hnotin
    cases hsel : env.selectReady with
    | true =>
      rw [tick_notify cfg env st hsel] at hres
      have hst2 := Option.some.inj hres
      rw [← hst2]
      exact notifyPhase_keys_not_mem cfg env row.id env.notifies (complete_jobs st.jobs).1
        h1 (fun nf hnf => hnfs nf hnf)
    | false =>
      by_cases hn : 0 < capacity cfg (complete_jobs st.jobs).1
      · rw [tick_poll_pos cfg env st hsel hn] at hres
        cases hpoll : (pollRows env (env.bulkRows (capacity cfg (complete_jobs st.jobs).1))
            (complete_jobs st.jobs).1).1 with
        | none => rw [hpoll] at hres; simp at hres
        | some reg2 =>
          rw [hpoll] at hres
          simp at hres
          rw [← hres]
          exact pollRows_keys_not_mem env row.id
            (env.bulkRows (capacity cfg (complete_jobs st.jobs).1))
            (complete_jobs st.jobs).1 reg2 hpoll h1
            (fun r2 hr2 => hbulk (capacity cfg (complete_jobs st.jobs).1) r2 hr2)
      · rw [tick_poll_nonpos cfg env st hsel hn] at hres
        have hst2 := Option.some.inj hres
        rw [← hst2]
        exact h1

/-! ### Closed instances discharging the hypotheses of the claim theorems -/

/-- A child interpreter in which the dotted reference resolves and the
function returns the string "Passed" (the repository's sample job). -/
def envResolves : ChildEnv :=
  { importMod := fun _ => Except.ok (),
    getattr := fun _ _ => Except.ok (fun _ _ => Except.ok (Value.vstr "Passed")) }

/-- The sample job row of test.py: func test.test, empty args and kwargs. -/
def rowSample : JobRow :=
  { id := "j1", queue := "default",
    payload := { func := "test.test", args := [], kwargs := [] },
    tries := 3, timeout := 5 }

/-- The handle of the sample job after its child ran to completion: the pipe
holds the message Job.run produced and the process exited with code 0. -/
def jHandleSample : Job :=
  { msg := Job.run envResolves rowSample, exitcode := some 0, elapsed := 1, timeout := 5,
    aliveAfterGrace := false, exitcodeAfterTerm := some 0, closeRaises := false }

theorem capacity_invariant_witness :
    ({ jobs := [], it := 1 } : St).jobs.length ≤ cfgOne.procs :=
  capacity_invariant cfgOne envIdle { jobs := [], it := 0 } { jobs := [], it := 1 }
    (fun n hn => by simp [envIdle]; omega) (by decide) (by decide)

theorem exactly_once_reaping_witness :
    "a" ∉ keys (complete_jobs [("a", jHandleDone), ("c", jHandleLive)]).1 ∧
    List.countP (fun e => isReportFor "a" e)
      (complete_jobs [("a", jHandleDone), ("c", jHandleLive)]).2 = 1 :=
  (exactly_once_reaping [("a", jHandleDone), ("c", jHandleLive)] "a" jHandleDone
    (by decide) (by decide)).1 (by decide)

theorem ready_reap_witness :
    Ev.finishJob "j1" { result := Value.vstr "Passed", exc := none, exitcode := some 0 }
      ∈ (complete_jobs [("j1", jHandleSample)]).2 :=
  (ready_reap_postcondition [("j1", jHandleSample)] "j1" jHandleSample
    (by decide) (by decide) (by decide)).2.1 rfl

theorem timeout_reap_witness :
    "jt" ∉ keys (complete_jobs [("jt", jHandleHung)]).1 ∧
    ∃ pre post, (complete_jobs [("jt", jHandleHung)]).2 =
      pre ++ [Ev.popReg "jt", Ev.terminateProc "jt", Ev.sleepSec 3]
        ++ (if jHandleHung.aliveAfterGrace then [Ev.killProc "jt", Ev.sleepSec 1] else [])
        ++ [if jHandleHung.closeRaises then Ev.closeFailed "jt" else Ev.closeOk "jt",
            Ev.failJob "jt" { result := Value.vnone, exc := some "timed out",
                              exitcode := jHandleHung.exitcodeAfterTerm },
            Ev.commitEv] ++ post :=
  timeout_reap_postcondition [("jt", jHandleHung)] "jt" jHandleHung
    (by decide) (by decide) (by decide) (by decide)

theorem termination_escalation_witness :
    Ev.killProc "jk" ∈ (complete_jobs [("jk", jHandleHung)]).2 :=
  ((termination_escalation [("jk", jHandleHung)] "jk" jHandleHung
    (by decide) (by decide) (by decide) (by decide)).1).mpr (by decide)

end PgQueue
